import Mathlib

/-!
Verification of the `gods` container library specification.

The repository's source files declare only the interface contracts
(`Container`, `Peeker`, `Stack`, `Queue`, `MonotoneQueue`, `Slice`, ...);
the concrete implementations of `MonotoneQueue` and `Slice` are not part
of the provided sources.  Every operation below is therefore modelled
from the specification's own description of its behavior, as a pure
function over Lean lists: the sequence is a `List α`, index `0` is the
front and the last position is the back, and the found/not-found result
pair of the Go code is an `Option`.
-/

namespace Gods

/-- Modelled from the spec: the missing `MonotoneQueue` implementation's
`Push`, configured for minimum-at-front.  While the back of the queue
exists and `order back value` indicates the back is no longer favorable
(for the min direction: back ≥ incoming, i.e. `order back value` is not
`lt`), pop the back and discard it; then append `value` to the back.
The queue is a `List α` read front-to-back. -/
def MonotoneQueue.push (order : α → α → Ordering) (q : List α) (v : α) : List α :=
  (q.reverse.dropWhile (fun b => !decide (order b v = Ordering.lt))).reverse ++ [v]

/-- Pushing a whole list of values, in order, into an initially empty
minimum-at-front `MonotoneQueue`. -/
def MonotoneQueue.pushAll (order : α → α → Ordering) (vs : List α) : List α :=
  vs.foldl (MonotoneQueue.push order) []

/-- Modelled from the spec: normalization of one index argument of the
missing `Slice` implementation: a negative index counts from the end,
and the result is clamped to `[0, length]`. -/
def Slice.normIdx (len : Nat) (i : Int) : Nat :=
  (if i < 0 then (len : Int) + i else i).toNat.min len

/-- Modelled from the spec: the missing `Slice` implementation's
`Splice(start, deleteCount, elements...)`.  `start` is normalized and
clamped; `deleteCount = -1` means delete from `start` through the end,
otherwise it is clamped to `[0, length - start]`; the result is the pair
of the mutated sequence and the removed elements in original order. -/
def Slice.splice (l : List α) (start deleteCount : Int) (elements : List α) :
    List α × List α :=
  let s := Slice.normIdx l.length start
  let dc := if deleteCount = -1 then l.length - s
            else deleteCount.toNat.min (l.length - s)
  (l.take s ++ elements ++ l.drop (s + dc), (l.drop s).take dc)

/-- Modelled from the spec: the missing `Slice` implementation's
`Slice(start?, end?)` with variadic optional bounds: omitted start is 0,
omitted end is the length, negative indices count from the end, bounds
clamped to `[0, length]`; returns the elements in positions
`[start, end)` as a new sequence. -/
def Slice.sliceSection (l : List α) (args : List Int) : List α :=
  let s := match args with
    | [] => 0
    | a :: _ => Slice.normIdx l.length a
  let e := match args with
    | _ :: b :: _ => Slice.normIdx l.length b
    | _ => l.length
  (l.drop s).take (e - s)

/-- Modelled from the spec: the missing `Slice` implementation's `Pop`:
remove and return the last element, with an explicit not-found signal
(`none`) on the empty sequence, which is left unchanged. -/
def Slice.pop (l : List α) : Option α × List α :=
  match l.getLast? with
  | none => (none, l)
  | some x => (some x, l.dropLast)

/-- Modelled from the spec: the missing `Slice` implementation's
`PopFront`: remove and return the first element, with an explicit
not-found signal (`none`) on the empty sequence. -/
def Slice.popFront (l : List α) : Option α × List α :=
  match l with
  | [] => (none, [])
  | x :: xs => (some x, xs)

/-- Modelled from the spec: the missing `Peeker` implementation's `Peek`:
the topmost (front) element without modifying the container, `none` when
empty. -/
def Peeker.peek (l : List α) : Option α := l.head?

/-- Modelled from the spec: the missing `Slice` implementation's
`Prepend`: inserts the arguments at the start, first argument first. -/
def Slice.prepend (elements l : List α) : List α := elements ++ l

/-- Modelled from the spec: the missing `Slice` implementation's `Map`:
projects every element, preserving order and length, into a new
sequence. -/
def Slice.map (project : α → β) (l : List α) : List β := l.map project

/-- Modelled from the spec: the missing `Slice` implementation's
`ReduceRight`: folds from the last element to the first, threading the
accumulator, and passes each element's forward index to the callback. -/
def Slice.reduceRight (fn : β → α → Nat → β) (initialValue : β) (l : List α) : β :=
  l.enum.reverse.foldl (fun acc p => fn acc p.2 p.1) initialValue

/-- Modelled from the spec and the `IndexRanger` contract of src/ds.go
(whose `Slice` implementation is missing): the trace of
`(index, value)` invocations that `RangeWithIndex(fn)` makes starting at
index `i`, stopping after the first invocation returning false. -/
def Slice.rangeWithIndexFrom (fn : Nat → α → Bool) : Nat → List α → List (Nat × α)
  | _, [] => []
  | i, x :: xs =>
    if fn i x then (i, x) :: Slice.rangeWithIndexFrom fn (i + 1) xs else [(i, x)]

/-- The invocation trace of `RangeWithIndex(fn)`, which starts at index 0. -/
def Slice.rangeWithIndex (fn : Nat → α → Bool) (l : List α) : List (Nat × α) :=
  Slice.rangeWithIndexFrom fn 0 l

/-- The head of a `dropWhile` result, when it exists, fails the predicate. -/
theorem head_of_dropWhile_eq_cons {p : α → Bool} {l : List α} {x : α} {xs : List α}
    (h : l.dropWhile p = x :: xs) : p x = false := by
  induction l with
  | nil => simp [List.dropWhile] at h
  | cons a l ih =>
    rw [List.dropWhile_cons] at h
    by_cases hp : p a = true
    · simp [hp] at h
      exact ih h
    · simp [hp] at h
      rw [← h.1]
      simpa using hp

/-- A push preserves the strict front-to-back chain invariant, for any
ordering function. -/
theorem MonotoneQueue.push_chain (order : α → α → Ordering) (q : List α) (v : α)
    (h : List.Chain' (fun a b => order a b = Ordering.lt) q) :
    List.Chain' (fun a b => order a b = Ordering.lt) (MonotoneQueue.push order q v) := by
  unfold MonotoneQueue.push
  rw [← List.reverse_reverse ((q.reverse.dropWhile _).reverse ++ [v])]
  rw [List.chain'_reverse]
  rw [List.reverse_append, List.reverse_reverse]
  simp only [List.reverse_cons, List.reverse_nil, List.nil_append, List.singleton_append]
  set p : α → Bool := fun b => !decide (order b v = Ordering.lt) with hp
  have hrev : List.Chain' (flip fun a b => order a b = Ordering.lt) q.reverse := by
    rw [List.chain'_reverse]
    simpa using h
  have hsuffix : List.Chain' (flip fun a b => order a b = Ordering.lt)
      (q.reverse.dropWhile p) :=
    hrev.suffix (List.dropWhile_suffix p)
  cases hd : q.reverse.dropWhile p with
  | nil => simp
  | cons x xs =>
    rw [hd] at hsuffix
    apply List.Chain'.cons
    · have hx : p x = false := head_of_dropWhile_eq_cons hd
      have : ¬ (!decide (order x v = Ordering.lt)) = true := by
        rw [hp] at hx
        simp [hx]
      simp only [Bool.not_eq_true', decide_eq_false_iff_not, Bool.not_eq_false] at this
      simp only [flip]
      simpa using this
    · exact hsuffix

/-- C1: for a `MonotoneQueue` configured for minimum-at-front, after any
sequence of `Push` calls starting from the empty queue, every adjacent
pair `(a, b)` in front-to-back order satisfies `order a b ≠ gt`
(less-or-equal, never greater). -/
theorem monotoneQueue_pushAll_monotonic (order : α → α → Ordering) (vs : List α) :
    List.Chain' (fun a b => order a b ≠ Ordering.gt) (MonotoneQueue.pushAll order vs) := by
  have key : List.Chain' (fun a b => order a b = Ordering.lt)
      (MonotoneQueue.pushAll order vs) := by
    unfold MonotoneQueue.pushAll
    have general : ∀ (ws : List α) (q : List α),
        List.Chain' (fun a b => order a b = Ordering.lt) q →
        List.Chain' (fun a b => order a b = Ordering.lt)
          (ws.foldl (MonotoneQueue.push order) q) := by
      intro ws
      induction ws with
      | nil => intro q hq; simpa using hq
      | cons w ws ih =>
        intro q hq
        simp only [List.foldl_cons]
        exact ih _ (MonotoneQueue.push_chain order q w hq)
    exact general vs [] (by simp)
  exact key.imp fun a b hab => by rw [hab]; simp

/-- A push splits the old queue into a kept prefix and an evicted suffix:
every evicted element was unfavorable against the incoming value, the
last kept element (if any) is strictly favorable, and the result is the
kept prefix with the incoming value appended. -/
theorem MonotoneQueue.push_decompose (order : α → α → Ordering) (q : List α) (v : α) :
    ∃ pre suf, q = pre ++ suf ∧
      (∀ b ∈ suf, order b v ≠ Ordering.lt) ∧
      (∀ b, pre.getLast? = some b → order b v = Ordering.lt) ∧
      MonotoneQueue.push order q v = pre ++ [v] := by
  refine ⟨(q.reverse.dropWhile (fun b => !decide (order b v = Ordering.lt))).reverse,
    (q.reverse.takeWhile (fun b => !decide (order b v = Ordering.lt))).reverse,
    ?_, ?_, ?_, rfl⟩
  · calc q = q.reverse.reverse := (List.reverse_reverse q).symm
      _ = (q.reverse.takeWhile (fun b => !decide (order b v = Ordering.lt)) ++
            q.reverse.dropWhile (fun b => !decide (order b v = Ordering.lt))).reverse := by
          rw [List.takeWhile_append_dropWhile]
      _ = _ := by rw [List.reverse_append]
  · intro b hb
    rw [List.mem_reverse] at hb
    have hp := List.mem_takeWhile_imp hb
    simpa using hp
  · intro b hb
    rw [List.getLast?_reverse] at hb
    cases hd : q.reverse.dropWhile (fun b => !decide (order b v = Ordering.lt)) with
    | nil => rw [hd] at hb; simp at hb
    | cons x xs =>
      rw [hd] at hb
      simp only [List.head?_cons, Option.some.injEq] at hb
      have hx := head_of_dropWhile_eq_cons hd
      rw [← hb]
      simpa using hx

/-- C2: `Push` first repeatedly pops and discards the back element while
it is unfavorable against the incoming value, then appends the value to
the back; pushing 5, 3, 4, 2 into a min-monotonic queue leaves exactly
[2]. -/
theorem monotoneQueue_push_drops_unfavorable_back :
    (∀ (α : Type) (order : α → α → Ordering) (q : List α) (v : α),
      ∃ pre suf, q = pre ++ suf ∧
        (∀ b ∈ suf, order b v ≠ Ordering.lt) ∧
        (∀ b, pre.getLast? = some b → order b v = Ordering.lt) ∧
        MonotoneQueue.push order q v = pre ++ [v]) ∧
    MonotoneQueue.pushAll compare [(5 : Int), 3, 4, 2] = [2] :=
  ⟨fun _ order q v => MonotoneQueue.push_decompose order q v, by decide⟩

/-- C3: `Push` always ends with the incoming value present at the back
of the queue; the queue drops elements only from the back (the result is
a prefix of the old queue followed by the incoming value) and never
discards the incoming value. -/
theorem monotoneQueue_push_keeps_incoming (order : α → α → Ordering) (q : List α) (v : α) :
    (MonotoneQueue.push order q v).getLast? = some v ∧
    ∃ pre suf, q = pre ++ suf ∧ MonotoneQueue.push order q v = pre ++ [v] := by
  obtain ⟨pre, suf, h1, _, _, h4⟩ := MonotoneQueue.push_decompose order q v
  refine ⟨?_, pre, suf, h1, h4⟩
  rw [h4]
  simp

/-- Any list splits as a front part, a middle block of `dc` elements
starting at position `s`, and the rest. -/
theorem take_block_drop (l : List α) (s dc : Nat) :
    l = l.take s ++ ((l.drop s).take dc ++ l.drop (s + dc)) := by
  conv_lhs => rw [← List.take_append_drop s l]
  congr 1
  conv_lhs => rw [← List.take_append_drop dc (l.drop s)]
  rw [List.drop_drop]

/-- C4: `Splice` removes a contiguous block of the receiver (returned as
the deleted elements, in original order) and inserts the supplied
elements in its place; `[1,2,3,4,5].Splice(1, 2, 9, 9)` leaves
`[1,9,9,4,5]` and returns `[2,3]`, and `[1,2,3].Splice(1, -1)` leaves
`[1]` and returns `[2,3]`. -/
theorem slice_splice_spec :
    (∀ (α : Type) (l : List α) (start deleteCount : Int) (es : List α),
      ∃ pre post, l = pre ++ (Slice.splice l start deleteCount es).2 ++ post ∧
        (Slice.splice l start deleteCount es).1 = pre ++ (es ++ post)) ∧
    Slice.splice [(1:Int), 2, 3, 4, 5] 1 2 [9, 9] = ([1, 9, 9, 4, 5], [2, 3]) ∧
    Slice.splice [(1:Int), 2, 3] 1 (-1) [] = ([1], [2, 3]) := by
  refine ⟨?_, by decide, by decide⟩
  intro α l start deleteCount es
  refine ⟨l.take (Slice.normIdx l.length start),
    l.drop (Slice.normIdx l.length start +
      (if deleteCount = -1 then l.length - Slice.normIdx l.length start
       else deleteCount.toNat.min (l.length - Slice.normIdx l.length start))), ?_, ?_⟩
  · simp only [Slice.splice, List.append_assoc]
    exact take_block_drop l _ _
  · simp only [Slice.splice, List.append_assoc]

/-- C5: `Slice(start?, end?)` returns a new sequence holding exactly the
elements in positions `[start, end)` after normalizing negative indices
from the end and clamping out-of-range bounds to `[0, length]`; omitted
start defaults to 0 and omitted end to the length. -/
theorem slice_section_spec :
    (∀ (α : Type) (l : List α) (s e : Int) (i : Nat),
      (Slice.sliceSection l [s, e])[i]? =
        if Slice.normIdx l.length s + i < Slice.normIdx l.length e
        then l[Slice.normIdx l.length s + i]? else none) ∧
    (∀ (α : Type) (l : List α), Slice.sliceSection l [] = l) ∧
    (∀ (α : Type) (l : List α) (s : Int),
      Slice.sliceSection l [s] = Slice.sliceSection l [s, (l.length : Int)]) ∧
    Slice.sliceSection [(1:Int), 2, 3, 4] [-3, -1] = [2, 3] ∧
    Slice.sliceSection [(1:Int), 2, 3] [-10, 10] = [1, 2, 3] := by
  refine ⟨?_, ?_, ?_, by decide, by decide⟩
  · intro α l s e i
    have hiff : (i < Slice.normIdx l.length e - Slice.normIdx l.length s) ↔
        (Slice.normIdx l.length s + i < Slice.normIdx l.length e) := by omega
    simp only [Slice.sliceSection, List.getElem?_take, List.getElem?_drop, hiff]
  · intro α l
    simp [Slice.sliceSection]
  · intro α l s
    have he : Slice.normIdx l.length (l.length : Int) = l.length := by
      unfold Slice.normIdx
      rw [if_neg (by omega)]
      simp
    simp [Slice.sliceSection, he]

/-- C6: `Pop`, `PopFront` and `Peek` on an empty container signal
absence via an explicit not-found pair and leave the container
unchanged; on a non-empty container they return the actual boundary
element (never an in-band sentinel) together with the rest. -/
theorem slice_empty_absence (α : Type) :
    Slice.pop ([] : List α) = (none, []) ∧
    Slice.popFront ([] : List α) = (none, []) ∧
    Peeker.peek ([] : List α) = none ∧
    (∀ l : List α, l ≠ [] →
      (∃ x xs, Slice.pop l = (some x, xs) ∧ l = xs ++ [x]) ∧
      (∃ y ys, Slice.popFront l = (some y, ys) ∧ l = y :: ys) ∧
      (∃ z, Peeker.peek l = some z ∧ l = z :: l.tail)) := by
  refine ⟨rfl, rfl, rfl, ?_⟩
  intro l hl
  refine ⟨?_, ?_, ?_⟩
  · rcases List.eq_nil_or_concat l with h | ⟨xs, x, h⟩
    · exact absurd h hl
    · rw [List.concat_eq_append] at h
      subst h
      refine ⟨x, xs, ?_, rfl⟩
      simp [Slice.pop]
  · cases l with
    | nil => exact absurd rfl hl
    | cons y ys => exact ⟨y, ys, rfl, rfl⟩
  · cases l with
    | nil => exact absurd rfl hl
    | cons z zs => exact ⟨z, rfl, rfl⟩

/-- Folding a snoc-accumulator over a list appends the list. -/
theorem foldl_pair_snoc (xs : List (Nat × γ)) (a : List (Nat × γ)) :
    xs.foldl (fun acc p => acc ++ [(p.1, p.2)]) a = a ++ xs := by
  induction xs generalizing a with
  | nil => simp
  | cons x xs ih => simp [ih]

/-- C7: `ReduceRight` folds from the last element to the first with the
accumulator threaded through, passing each element's forward index: its
invocation trace over any list is exactly the reversed forward
enumeration, the sum example over `[1,2,3,4]` is `10`, and the indices
are visited in order `3, 2, 1, 0`. -/
theorem slice_reduceRight_spec :
    (∀ (α : Type) (l : List α),
      Slice.reduceRight (fun acc v i => acc ++ [(i, v)]) [] l = l.enum.reverse) ∧
    Slice.reduceRight (fun acc v _ => acc + v) 0 [(1:Int), 2, 3, 4] = 10 ∧
    Slice.reduceRight (fun acc _ i => acc ++ [i]) [] [(1:Int), 2, 3, 4] = [3, 2, 1, 0] := by
  refine ⟨?_, by decide, by decide⟩
  intro α l
  simpa [Slice.reduceRight] using foldl_pair_snoc l.enum.reverse []

/-- C8: `Prepend` inserts its arguments at the start with their relative
order preserved: the result starts with the arguments (first argument
first) and continues with the original sequence. -/
theorem slice_prepend_preserves_order (args l : List α) :
    (Slice.prepend args l).take args.length = args ∧
    (Slice.prepend args l).drop args.length = l ∧
    (∀ a rest, args = a :: rest → (Slice.prepend args l).head? = some a) := by
  refine ⟨?_, ?_, ?_⟩
  · simp [Slice.prepend]
  · simp [Slice.prepend]
  · intro a rest h
    subst h
    rfl

/-- C9: the functor composition law: mapping `f` and then `g` over a
sequence equals mapping their composition. -/
theorem slice_map_composition (f : α → β) (g : β → γ) (l : List α) :
    Slice.map g (Slice.map f l) = Slice.map (fun x => g (f x)) l := by
  simp [Slice.map]

/-- The `RangeWithIndex` trace from index `i` is the enumerated prefix
through the first invocation where the callback answers false. -/
theorem rangeWithIndexFrom_spec (fn : Nat → α → Bool) (i : Nat) (l : List α) :
    Slice.rangeWithIndexFrom fn i l =
      ((l.enumFrom i).takeWhile fun p => fn p.1 p.2) ++
      ((l.enumFrom i).dropWhile fun p => fn p.1 p.2).take 1 := by
  induction l generalizing i with
  | nil => simp [Slice.rangeWithIndexFrom]
  | cons x xs ih =>
    simp only [Slice.rangeWithIndexFrom, List.enumFrom_cons,
      List.takeWhile_cons, List.dropWhile_cons]
    by_cases h : fn i x
    · simp [h, ih]
    · simp [h]

/-- C10: `RangeWithIndex(fn)` invokes `fn` on `(index, element)` pairs
from index 0 in increasing order and stops permanently at the first
invocation returning false: its trace is the enumerated prefix through
that first failing pair, and later elements are never visited. -/
theorem slice_rangeWithIndex_spec (α : Type) (fn : Nat → α → Bool) (l : List α) :
    Slice.rangeWithIndex fn l =
      (l.enum.takeWhile fun p => fn p.1 p.2) ++
      (l.enum.dropWhile fun p => fn p.1 p.2).take 1 := by
  have h := rangeWithIndexFrom_spec fn 0 l
  simpa [Slice.rangeWithIndex, List.enum] using h

end Gods
